import Mathlib

/-!
# Verification of the professional-networking Solana program

Shallow embedding of `src/src/lib.rs` (crate `smart-contract-linkedin`).

* The record model (`Comment`, `Post`, `UserProfile`) is embedded together
  with its Borsh wire format: little-endian `u32` length prefixes for
  strings, vectors, sets and maps, one byte per `bool`, and 32 raw bytes
  per `Pubkey`.  Borsh serializes a `HashSet`/`HashMap` by sorting the
  elements/keys (the derived `Ord` on `Pubkey` is the lexicographic order
  of its 32 bytes), so a profile value is represented canonically: the
  `friends` list and the `posts` association list are strictly sorted.
  A `Pubkey` is modelled as a natural number below `2^256` whose byte
  encoding is its 32 big-endian bytes, which makes the numeric order agree
  with the lexicographic order of the encodings.
* String contents are modelled as their UTF-8 byte lists.
* The instruction handlers of `process_instruction` are embedded as a
  transition function over decoded account states, and the byte-for-byte
  slot write-back (`data[..len].copy_from_slice(..)`) as `writeBack`.
-/

namespace SocialLedger

/-- Identities (`solana_program::pubkey::Pubkey`): 32-byte keys, modelled
as naturals; validity bounds them below `2^256`. -/
abbrev Pubkey := Nat

/-- `k` fits in 32 bytes, i.e. is a representable `Pubkey`. -/
def ValidPubkey (k : Pubkey) : Prop := k < 2 ^ 256

/-! ## Byte-level primitives of the Borsh wire format -/

/-- Big-endian byte string of `n`, padded/truncated to `w` bytes
(the raw bytes of a `Pubkey`). -/
def natToBEBytes : Nat → Nat → List Nat
  | 0, _ => []
  | w + 1, n => natToBEBytes w (n / 256) ++ [n % 256]

/-- Read a big-endian byte string back into a natural number. -/
def beBytesToNat (l : List Nat) : Nat :=
  l.foldl (fun acc b => acc * 256 + b) 0

/-- Little-endian byte string of `n` in `w` bytes (Borsh integer length
prefixes are little-endian). -/
def natToLEBytes : Nat → Nat → List Nat
  | 0, _ => []
  | w + 1, n => n % 256 :: natToLEBytes w (n / 256)

/-- Read a little-endian byte string back into a natural number. -/
def leBytesToNat : List Nat → Nat
  | [] => 0
  | b :: bs => b + 256 * leBytesToNat bs

theorem natToBEBytes_length (w n : Nat) : (natToBEBytes w n).length = w := by
  induction w generalizing n with
  | zero => rfl
  | succ w ih => simp [natToBEBytes, ih]

theorem natToLEBytes_length (w n : Nat) : (natToLEBytes w n).length = w := by
  induction w generalizing n with
  | zero => rfl
  | succ w ih => simp [natToLEBytes, ih]

theorem beBytesToNat_foldl (w n acc : Nat) :
    (natToBEBytes w n).foldl (fun a b => a * 256 + b) acc
      = acc * 256 ^ w + n % 256 ^ w := by
  induction w generalizing n acc with
  | zero => simp [natToBEBytes, Nat.mod_one]
  | succ w ih =>
    have h256 : 256 ^ (w + 1) = 256 * 256 ^ w := by ring
    have hmod : n % 256 ^ (w + 1) = n % 256 + 256 * (n / 256 % 256 ^ w) := by
      rw [h256, Nat.mod_mul]
    simp only [natToBEBytes, List.foldl_append, List.foldl_cons, List.foldl_nil, ih]
    rw [hmod]
    ring

theorem beBytesToNat_natToBEBytes (w n : Nat) (h : n < 256 ^ w) :
    beBytesToNat (natToBEBytes w n) = n := by
  unfold beBytesToNat
  rw [beBytesToNat_foldl]
  simp [Nat.mod_eq_of_lt h]

theorem leBytesToNat_natToLEBytes (w n : Nat) (h : n < 256 ^ w) :
    leBytesToNat (natToLEBytes w n) = n := by
  induction w generalizing n with
  | zero => simp at h; simp [natToLEBytes, leBytesToNat, h]
  | succ w ih =>
    have hdiv : n / 256 < 256 ^ w := by
      rw [Nat.div_lt_iff_lt_mul (by norm_num)]
      calc n < 256 ^ (w + 1) := h
        _ = 256 ^ w * 256 := by ring
    simp [natToLEBytes, leBytesToNat, ih _ hdiv]
    omega

/-! ## Encoder/decoder pairs

Each `encX`/`decX` pair embeds the Borsh (de)serialization of one field
type; every decoder consumes a prefix of the byte stream and returns the
decoded value together with the remaining bytes. -/

/-- Borsh bytes of a `Pubkey` (its 32 raw bytes). -/
def encPubkey (k : Pubkey) : List Nat := natToBEBytes 32 k

def decPubkey (bs : List Nat) : Option (Pubkey × List Nat) :=
  if 32 ≤ bs.length then some (beBytesToNat (bs.take 32), bs.drop 32) else none

/-- Borsh bytes of a `u32` (length prefixes): 4 little-endian bytes. -/
def encU32 (n : Nat) : List Nat := natToLEBytes 4 n

def decU32 (bs : List Nat) : Option (Nat × List Nat) :=
  if 4 ≤ bs.length then some (leBytesToNat (bs.take 4), bs.drop 4) else none

/-- Borsh bytes of a `bool`: one byte, `1` for true and `0` for false. -/
def encBool (b : Bool) : List Nat := [if b then 1 else 0]

def decBool : List Nat → Option (Bool × List Nat)
  | 0 :: r => some (false, r)
  | 1 :: r => some (true, r)
  | _ => none

/-- Borsh bytes of a `String` (modelled by its UTF-8 byte list): `u32`
length prefix followed by the bytes. -/
def encStr (s : List Nat) : List Nat := encU32 s.length ++ s

def decStr (bs : List Nat) : Option (List Nat × List Nat) := do
  let (n, r) ← decU32 bs
  if n ≤ r.length then some (r.take n, r.drop n) else none

/-- Borsh bytes of a sequence (`Vec`, sorted `HashSet`, sorted `HashMap`):
`u32` length prefix followed by the encoded elements. -/
def encList (enc : α → List Nat) (xs : List α) : List Nat :=
  encU32 xs.length ++ (xs.map enc).flatten

/-- Decode exactly `n` consecutive elements. -/
def decListN (dec : List Nat → Option (α × List Nat)) :
    Nat → List Nat → Option (List α × List Nat)
  | 0, bs => some ([], bs)
  | n + 1, bs => do
    let (x, r) ← dec bs
    let (xs, r2) ← decListN dec n r
    some (x :: xs, r2)

def decList (dec : List Nat → Option (α × List Nat)) (bs : List Nat) :
    Option (List α × List Nat) := do
  let (n, r) ← decU32 bs
  decListN dec n r

theorem decPubkey_enc {k : Pubkey} (h : ValidPubkey k) (r : List Nat) :
    decPubkey (encPubkey k ++ r) = some (k, r) := by
  have hlen : (natToBEBytes 32 k).length = 32 := natToBEBytes_length 32 k
  have h32 : k < 256 ^ 32 := by
    have h2 : (256 : Nat) ^ 32 = 2 ^ 256 := by norm_num
    rw [h2]; exact h
  unfold decPubkey encPubkey
  rw [List.take_left' hlen, List.drop_left' hlen]
  simp [List.length_append, hlen, beBytesToNat_natToBEBytes 32 k h32]

theorem decU32_enc {n : Nat} (h : n < 2 ^ 32) (r : List Nat) :
    decU32 (encU32 n ++ r) = some (n, r) := by
  have hlen : (natToLEBytes 4 n).length = 4 := natToLEBytes_length 4 n
  have h4 : n < 256 ^ 4 := by
    have h2 : (256 : Nat) ^ 4 = 2 ^ 32 := by norm_num
    rw [h2]; exact h
  unfold decU32 encU32
  rw [List.take_left' hlen, List.drop_left' hlen]
  simp [List.length_append, hlen, leBytesToNat_natToLEBytes 4 n h4]

theorem decBool_enc (b : Bool) (r : List Nat) :
    decBool (encBool b ++ r) = some (b, r) := by
  cases b <;> rfl

theorem decStr_enc {s : List Nat} (h : s.length < 2 ^ 32) (r : List Nat) :
    decStr (encStr s ++ r) = some (s, r) := by
  have hslen : s.length ≤ (s ++ r).length := by
    simp [List.length_append]
  simp [decStr, encStr, List.append_assoc, decU32_enc h, hslen,
    List.take_left' rfl, List.drop_left' rfl]

theorem decListN_enc {α : Type} {enc : α → List Nat}
    {dec : List Nat → Option (α × List Nat)} (xs : List α)
    (hdec : ∀ x ∈ xs, ∀ r, dec (enc x ++ r) = some (x, r)) (rest : List Nat) :
    decListN dec xs.length ((xs.map enc).flatten ++ rest) = some (xs, rest) := by
  induction xs with
  | nil => simp [decListN]
  | cons x xs ih =>
    have hx := hdec x (by simp) ((xs.map enc).flatten ++ rest)
    have htail := ih (fun y hy r => hdec y (by simp [hy]) r)
    simp [decListN, List.append_assoc, hx, htail]

theorem decList_enc {α : Type} {enc : α → List Nat}
    {dec : List Nat → Option (α × List Nat)} (xs : List α)
    (hdec : ∀ x ∈ xs, ∀ r, dec (enc x ++ r) = some (x, r))
    (hlen : xs.length < 2 ^ 32) (rest : List Nat) :
    decList dec (encList enc xs ++ rest) = some (xs, rest) := by
  simp [decList, encList, List.append_assoc, decU32_enc hlen,
    decListN_enc xs hdec rest]

/-! ## Record model (`Comment`, `Post`, `UserProfile`) -/

/-- `struct Comment { author: Pubkey, content: String }`. -/
structure Comment where
  author : Pubkey
  content : List Nat
deriving DecidableEq, Repr

/-- `struct Post { author: Pubkey, content: String, comments: Vec<Comment> }`. -/
structure Post where
  author : Pubkey
  content : List Nat
  comments : List Comment
deriving DecidableEq, Repr

/-- `struct UserProfile`.  `isInit` embeds the `is_initialized` field.
`friends` (a `HashSet<Pubkey>`) is represented by its canonical strictly
sorted element list, and `posts` (a `HashMap<Pubkey, Vec<Post>>`) by its
canonical association list strictly sorted on keys — the forms Borsh
serialization produces. -/
structure UserProfile where
  isInit : Bool
  name : List Nat
  bio : List Nat
  profile_picture : List Nat
  address : Pubkey
  friends : List Pubkey
  nft_owned : Bool
  posts : List (Pubkey × List Post)
deriving DecidableEq, Repr

def encComment (c : Comment) : List Nat :=
  encPubkey c.author ++ encStr c.content

def decComment (bs : List Nat) : Option (Comment × List Nat) := do
  let (a, r1) ← decPubkey bs
  let (s, r2) ← decStr r1
  some (⟨a, s⟩, r2)

def encPost (p : Post) : List Nat :=
  encPubkey p.author ++ encStr p.content ++ encList encComment p.comments

def decPost (bs : List Nat) : Option (Post × List Nat) := do
  let (a, r1) ← decPubkey bs
  let (s, r2) ← decStr r1
  let (cs, r3) ← decList decComment r2
  some (⟨a, s, cs⟩, r3)

/-- One `HashMap` entry: key followed by value. -/
def encPostsEntry (e : Pubkey × List Post) : List Nat :=
  encPubkey e.1 ++ encList encPost e.2

def decPostsEntry (bs : List Nat) : Option ((Pubkey × List Post) × List Nat) := do
  let (k, r1) ← decPubkey bs
  let (ps, r2) ← decList decPost r1
  some ((k, ps), r2)

/-- Borsh serialization of a `UserProfile` (`try_to_vec`): the fields in
declaration order. -/
def encProfile (v : UserProfile) : List Nat :=
  encBool v.isInit ++ encStr v.name ++ encStr v.bio ++ encStr v.profile_picture ++
    encPubkey v.address ++ encList encPubkey v.friends ++ encBool v.nft_owned ++
    encList encPostsEntry v.posts

def decProfile (bs : List Nat) : Option (UserProfile × List Nat) := do
  let (i, r1) ← decBool bs
  let (nm, r2) ← decStr r1
  let (bo, r3) ← decStr r2
  let (pp, r4) ← decStr r3
  let (ad, r5) ← decPubkey r4
  let (fr, r6) ← decList decPubkey r5
  let (nf, r7) ← decBool r6
  let (ps, r8) ← decList decPostsEntry r7
  some (⟨i, nm, bo, pp, ad, fr, nf, ps⟩, r8)

/-- `UserProfile::try_from_slice`: decode and require that every input
byte was consumed; any leftover byte is a deserialization error. -/
def tryFromSlice (bs : List Nat) : Option UserProfile :=
  match decProfile bs with
  | some (v, []) => some v
  | _ => none

/-! ## Validity of record values

A value is valid when it is representable on the wire: every string and
sequence length fits in a `u32`, every byte is a byte, every identity fits
in 32 bytes, and the set/map fields are in their canonical sorted form. -/

/-- Strict ascending order on a key list (the canonical order Borsh
serialization emits for `HashSet` elements and `HashMap` keys). -/
def sortedB : List Nat → Bool
  | a :: b :: rest => a.blt b && sortedB (b :: rest)
  | _ => true

def ValidStr (s : List Nat) : Prop :=
  s.length < 2 ^ 32 ∧ ∀ b ∈ s, b < 256

def ValidComment (c : Comment) : Prop :=
  ValidPubkey c.author ∧ ValidStr c.content

def ValidPost (p : Post) : Prop :=
  ValidPubkey p.author ∧ ValidStr p.content ∧
    p.comments.length < 2 ^ 32 ∧ ∀ c ∈ p.comments, ValidComment c

def ValidProfile (v : UserProfile) : Prop :=
  ValidStr v.name ∧ ValidStr v.bio ∧ ValidStr v.profile_picture ∧
    ValidPubkey v.address ∧
    v.friends.length < 2 ^ 32 ∧ (∀ k ∈ v.friends, ValidPubkey k) ∧
    sortedB v.friends = true ∧
    v.posts.length < 2 ^ 32 ∧ sortedB (v.posts.map Prod.fst) = true ∧
    ∀ e ∈ v.posts, ValidPubkey e.1 ∧ e.2.length < 2 ^ 32 ∧ ∀ p ∈ e.2, ValidPost p

instance : DecidablePred ValidPubkey := fun _ => Nat.decLt _ _
instance : DecidablePred ValidStr := fun _ => instDecidableAnd
instance : DecidablePred ValidComment := fun _ => instDecidableAnd
instance : DecidablePred ValidPost := fun _ => instDecidableAnd
instance : DecidablePred ValidProfile := fun _ => instDecidableAnd

theorem decComment_enc {c : Comment} (h : ValidComment c) (r : List Nat) :
    decComment (encComment c ++ r) = some (c, r) := by
  obtain ⟨ha, hs⟩ := h
  simp [decComment, encComment, List.append_assoc, decPubkey_enc ha,
    decStr_enc hs.1]

theorem decPost_enc {p : Post} (h : ValidPost p) (r : List Nat) :
    decPost (encPost p ++ r) = some (p, r) := by
  obtain ⟨ha, hs, hn, hcs⟩ := h
  have hlist := decList_enc p.comments
    (fun c hc r' => decComment_enc (hcs c hc) r') hn r
  simp [decPost, encPost, List.append_assoc, decPubkey_enc ha,
    decStr_enc hs.1, hlist]

theorem decPostsEntry_enc {e : Pubkey × List Post}
    (hk : ValidPubkey e.1) (hn : e.2.length < 2 ^ 32)
    (hps : ∀ p ∈ e.2, ValidPost p) (r : List Nat) :
    decPostsEntry (encPostsEntry e ++ r) = some (e, r) := by
  have hlist := decList_enc e.2 (fun p hp r' => decPost_enc (hps p hp) r') hn r
  simp [decPostsEntry, encPostsEntry, List.append_assoc, decPubkey_enc hk, hlist]

theorem decProfile_enc {v : UserProfile} (h : ValidProfile v) (r : List Nat) :
    decProfile (encProfile v ++ r) = some (v, r) := by
  obtain ⟨hnm, hbo, hpp, had, hfl, hfk, _, hpl, _, hpe⟩ := h
  have hfriends := decList_enc v.friends
    (fun k hk r' => decPubkey_enc (hfk k hk) r') hfl
  have hposts := decList_enc v.posts
    (fun e he r' => decPostsEntry_enc (hpe e he).1 (hpe e he).2.1 (hpe e he).2.2 r') hpl
  simp [decProfile, encProfile, List.append_assoc, decBool_enc,
    decStr_enc hnm.1, decStr_enc hbo.1, decStr_enc hpp.1,
    decPubkey_enc had, hfriends, hposts]

/-- **C2.** For every valid `UserProfile` value `v` (and transitively every
`Post` and `Comment` it contains), decoding the bytes produced by encoding
`v` yields `v` again: `decode(encode(v)) == v`. -/
theorem userProfile_roundtrip (v : UserProfile) (h : ValidProfile v) :
    tryFromSlice (encProfile v) = some v := by
  have hd := decProfile_enc h []
  rw [List.append_nil] at hd
  simp [tryFromSlice, hd]

/-- A concrete profile exercising every field: nonempty strings, three
friends, and one post carrying one comment. -/
def sampleProfile : UserProfile :=
  ⟨true, [65, 108, 105, 99, 101], [66, 105, 111], [117, 114, 108], 7,
    [2, 3, 5], false, [(7, [⟨7, [72, 105], [⟨3, [89, 111]⟩]⟩])]⟩

theorem userProfile_roundtrip_witness :
    ValidProfile sampleProfile ∧
      tryFromSlice (encProfile sampleProfile) = some sampleProfile :=
  ⟨by decide, userProfile_roundtrip sampleProfile (by decide)⟩

/-! ## Set and map operations

`HashSet<Pubkey>` and `HashMap<Pubkey, Vec<Post>>` mutations, expressed on
the canonical sorted representations. -/

/-- `HashSet::insert`: insert `a` in key order; no duplicate is created
when `a` is already present. -/
def insertSorted (l : List Nat) (a : Nat) : List Nat :=
  match l with
  | [] => [a]
  | b :: bs =>
    if a < b then a :: b :: bs
    else if a = b then b :: bs
    else b :: insertSorted bs a

theorem mem_insertSorted (l : List Nat) (a x : Nat) :
    x ∈ insertSorted l a ↔ x = a ∨ x ∈ l := by
  induction l with
  | nil => simp [insertSorted]
  | cons b bs ih =>
    show x ∈ (if a < b then a :: b :: bs else if a = b then b :: bs
        else b :: insertSorted bs a) ↔ x = a ∨ x ∈ b :: bs
    by_cases h1 : a < b
    · rw [if_pos h1]
      simp [List.mem_cons]
    · rw [if_neg h1]
      by_cases h2 : a = b
      · rw [if_pos h2]
        subst h2
        simp only [List.mem_cons]
        tauto
      · rw [if_neg h2]
        simp only [List.mem_cons, ih]
        tauto

theorem sortedB_cons_lt {b : Nat} {bs : List Nat}
    (h : sortedB (b :: bs) = true) : ∀ x ∈ bs, b < x := by
  induction bs generalizing b with
  | nil => simp
  | cons c cs ih =>
    simp only [sortedB, Bool.and_eq_true, Nat.blt_eq] at h
    intro x hx
    rcases List.mem_cons.mp hx with hx | hx
    · exact hx ▸ h.1
    · exact lt_trans h.1 (ih h.2 x hx)

theorem sortedB_tail {b : Nat} {bs : List Nat}
    (h : sortedB (b :: bs) = true) : sortedB bs = true := by
  cases bs with
  | nil => rfl
  | cons c cs =>
    simp only [sortedB, Bool.and_eq_true] at h
    exact h.2

theorem insertSorted_eq_of_mem {l : List Nat} {a : Nat}
    (hs : sortedB l = true) (ha : a ∈ l) : insertSorted l a = l := by
  induction l with
  | nil => cases ha
  | cons b bs ih =>
    rcases List.mem_cons.mp ha with he | hm
    · subst he
      simp [insertSorted]
    · have hb : b < a := sortedB_cons_lt hs a hm
      have h1 : ¬ a < b := by omega
      have h2 : ¬ a = b := by omega
      simp [insertSorted, h1, h2, ih (sortedB_tail hs) hm]

/-- `HashMap::get` on the canonical association list. -/
def postsGet (posts : List (Pubkey × List Post)) (author : Pubkey) :
    Option (List Post) :=
  match posts with
  | [] => none
  | (k, ps) :: rest => if k = author then some ps else postsGet rest author

/-- `posts.entry(author).or_insert_with(Vec::new).push(post)`: append to
the author's sequence, creating the entry (in key order) when absent. -/
def postsInsert (posts : List (Pubkey × List Post)) (author : Pubkey)
    (post : Post) : List (Pubkey × List Post) :=
  match posts with
  | [] => [(author, [post])]
  | (k, ps) :: rest =>
    if author < k then (author, [post]) :: (k, ps) :: rest
    else if author = k then (k, ps ++ [post]) :: rest
    else (k, ps) :: postsInsert rest author post

/-! ## Profile operations (`impl UserProfile`) -/

/-- `UserProfile::new(name, bio, profile_picture, address)`. -/
def UserProfile.new (name bio profile_picture : List Nat) (address : Pubkey) :
    UserProfile :=
  ⟨true, name, bio, profile_picture, address, [], false, []⟩

/-- `UserProfile::can_write_post`: `self.nft_owned && self.friends.len() >= 5`. -/
def UserProfile.can_write_post (p : UserProfile) : Bool :=
  p.nft_owned && decide (5 ≤ p.friends.length)

/-- `UserProfile::can_comment`: the same predicate. -/
def UserProfile.can_comment (p : UserProfile) : Bool :=
  p.nft_owned && decide (5 ≤ p.friends.length)

/-- `UserProfile::add_post`: build `Post::new(author, content)` and push it
onto `posts[author]`. -/
def UserProfile.add_post (p : UserProfile) (author : Pubkey)
    (content : List Nat) : UserProfile :=
  { p with posts := postsInsert p.posts author ⟨author, content, []⟩ }

/-- Push a comment onto the post at `idx` (the `get_mut`/`push` inside
`UserProfile::add_comment`); out-of-range indices leave the list as is. -/
def addCommentAt (ps : List Post) (idx : Nat) (c : Comment) : List Post :=
  match ps, idx with
  | [], _ => []
  | p :: rest, 0 => { p with comments := p.comments ++ [c] } :: rest
  | p :: rest, i + 1 => p :: addCommentAt rest i c

def postsUpdate (posts : List (Pubkey × List Post)) (author : Pubkey)
    (idx : Nat) (c : Comment) : List (Pubkey × List Post) :=
  match posts with
  | [] => []
  | (k, ps) :: rest =>
    if k = author then (k, addCommentAt ps idx c) :: rest
    else (k, ps) :: postsUpdate rest author idx c

/-- `UserProfile::add_comment(post_author, post_index, comment_author,
content)`: on a hit, push the comment and return `Ok(())`; when the author
is missing or the index out of range, leave the profile untouched and
return `Err(ProgramError::InvalidAccountData)`.  The boolean records
whether the call returned `Ok`. -/
def UserProfile.add_comment (p : UserProfile) (post_author : Pubkey)
    (post_index : Nat) (comment_author : Pubkey) (content : List Nat) :
    UserProfile × Bool :=
  match postsGet p.posts post_author with
  | some ps =>
    if post_index < ps.length then
      ({ p with posts := postsUpdate p.posts post_author post_index (Comment.mk comment_author content) }, true)
    else (p, false)
  | none => (p, false)

/-- `data[..serialized.len()].copy_from_slice(&serialized)`: when the
encoded bytes fit the slot, overwrite the leading bytes and keep the
trailing bytes; when they do not fit, the Rust range indexing panics and
aborts the call — modelled as `none`.  No capacity check producing an
error value exists in the program. -/
def writeBack (slot enc : List Nat) : Option (List Nat) :=
  if enc.length ≤ slot.length then some (enc ++ slot.drop enc.length) else none

/-! ## Exact-fit slots and encoding growth

`try_from_slice` is strict, so a slot that decodes holds exactly the
encoding of its profile; these lemmas measure how each mutation changes
the encoding's length and what the write-back does on an exact-fit slot. -/

theorem tryFromSlice_encProfile {v : UserProfile} (h : ValidProfile v) :
    tryFromSlice (encProfile v) = some v := by
  have hd := decProfile_enc h []
  rw [List.append_nil] at hd
  simp [tryFromSlice, hd]

theorem tryFromSlice_append_ne_nil {v : UserProfile} (hv : ValidProfile v)
    {r : List Nat} (hr : r ≠ []) : tryFromSlice (encProfile v ++ r) = none := by
  unfold tryFromSlice
  rw [decProfile_enc hv r]
  cases r with
  | nil => exact absurd rfl hr
  | cons x xs => rfl

theorem writeBack_exact {slot enc : List Nat} (h : enc.length = slot.length) :
    writeBack slot enc = some enc := by
  unfold writeBack
  rw [if_pos (le_of_eq h), h, List.drop_length, List.append_nil]

theorem writeBack_none_of_lt {slot enc : List Nat} (h : slot.length < enc.length) :
    writeBack slot enc = none := by
  unfold writeBack
  rw [if_neg (by omega)]

theorem length_insertSorted_of_not_mem {l : List Nat} {a : Nat} (h : a ∉ l) :
    (insertSorted l a).length = l.length + 1 := by
  induction l with
  | nil => rfl
  | cons b bs ih =>
    have hab : ¬ a = b := fun he => h (by rw [he]; exact List.mem_cons_self b bs)
    have hbs : a ∉ bs := fun hm => h (List.mem_cons_of_mem b hm)
    show (if a < b then a :: b :: bs else if a = b then b :: bs
        else b :: insertSorted bs a).length = (b :: bs).length + 1
    by_cases h1 : a < b
    · rw [if_pos h1]
      rfl
    · rw [if_neg h1, if_neg hab]
      simp [List.length_cons, ih hbs]

theorem flatten_map_encPubkey_length (l : List Pubkey) :
    ((l.map encPubkey).flatten).length = 32 * l.length := by
  induction l with
  | nil => rfl
  | cons b bs ih =>
    simp [encPubkey, natToBEBytes_length, ih, List.length_append]
    ring

theorem encList_length_append_one {α : Type} (enc : α → List Nat)
    (xs : List α) (x : α) :
    (encList enc (xs ++ [x])).length = (encList enc xs).length + (enc x).length := by
  simp [encList, encU32, natToLEBytes_length, List.length_append]
  omega

theorem encPostsEntry_length_pos (e : Pubkey × List Post) :
    0 < (encPostsEntry e).length := by
  simp [encPostsEntry, encPubkey, natToBEBytes_length, List.length_append]

theorem encPost_length_pos (post : Post) : 0 < (encPost post).length := by
  simp [encPost, encPubkey, natToBEBytes_length, List.length_append]

theorem encComment_length_pos (c : Comment) : 0 < (encComment c).length := by
  simp [encComment, encPubkey, natToBEBytes_length, List.length_append]

theorem flatten_length_postsInsert (posts : List (Pubkey × List Post))
    (k : Pubkey) (post : Post) :
    ((posts.map encPostsEntry).flatten).length
      < (((postsInsert posts k post).map encPostsEntry).flatten).length := by
  induction posts with
  | nil =>
    have hpos := encPostsEntry_length_pos (k, [post])
    show ((([] : List (Pubkey × List Post)).map encPostsEntry).flatten).length
        < (([(k, [post])].map encPostsEntry).flatten).length
    simp only [List.map_nil, List.map_cons, List.flatten_nil, List.flatten_cons,
      List.length_nil, List.append_nil]
    exact hpos
  | cons e rest ih =>
    obtain ⟨k0, ps⟩ := e
    by_cases h1 : k < k0
    · have hin : postsInsert ((k0, ps) :: rest) k post
          = (k, [post]) :: (k0, ps) :: rest := by
        show (if k < k0 then (k, [post]) :: (k0, ps) :: rest
            else if k = k0 then (k0, ps ++ [post]) :: rest
            else (k0, ps) :: postsInsert rest k post)
          = (k, [post]) :: (k0, ps) :: rest
        rw [if_pos h1]
      rw [hin]
      have hpos := encPostsEntry_length_pos (k, [post])
      simp only [List.map_cons, List.flatten_cons, List.length_append]
      omega
    · by_cases h2 : k = k0
      · have hin : postsInsert ((k0, ps) :: rest) k post
            = (k0, ps ++ [post]) :: rest := by
          show (if k < k0 then (k, [post]) :: (k0, ps) :: rest
              else if k = k0 then (k0, ps ++ [post]) :: rest
              else (k0, ps) :: postsInsert rest k post)
            = (k0, ps ++ [post]) :: rest
          rw [if_neg h1, if_pos h2]
        rw [hin]
        have hgrow : (encPostsEntry (k0, ps ++ [post])).length
            = (encPostsEntry (k0, ps)).length + (encPost post).length := by
          simp [encPostsEntry, List.length_append, encList_length_append_one]
          omega
        have hpos := encPost_length_pos post
        simp only [List.map_cons, List.flatten_cons, List.length_append, hgrow]
        omega
      · have hin : postsInsert ((k0, ps) :: rest) k post
            = (k0, ps) :: postsInsert rest k post := by
          show (if k < k0 then (k, [post]) :: (k0, ps) :: rest
              else if k = k0 then (k0, ps ++ [post]) :: rest
              else (k0, ps) :: postsInsert rest k post)
            = (k0, ps) :: postsInsert rest k post
          rw [if_neg h1, if_neg h2]
        rw [hin]
        simp only [List.map_cons, List.flatten_cons, List.length_append]
        omega

theorem flatten_length_addCommentAt {ps : List Post} {idx : Nat}
    (h : idx < ps.length) (c : Comment) :
    ((ps.map encPost).flatten).length
      < (((addCommentAt ps idx c).map encPost).flatten).length := by
  induction ps generalizing idx with
  | nil => simp at h
  | cons post rest ih =>
    cases idx with
    | zero =>
      have hgrow : (encPost { post with comments := post.comments ++ [c] }).length
          = (encPost post).length + (encComment c).length := by
        simp [encPost, List.length_append, encList_length_append_one]
        omega
      have hpos := encComment_length_pos c
      show (((post :: rest).map encPost).flatten).length
          < ((({ post with comments := post.comments ++ [c] } :: rest).map encPost).flatten).length
      simp only [List.map_cons, List.flatten_cons, List.length_append, hgrow]
      omega
    | succ i =>
      have h2 : i < rest.length := by simpa using h
      have hih := ih h2
      show (((post :: rest).map encPost).flatten).length
          < (((post :: addCommentAt rest i c).map encPost).flatten).length
      simp only [List.map_cons, List.flatten_cons, List.length_append]
      omega

theorem flatten_length_postsUpdate {posts : List (Pubkey × List Post)}
    {pa : Pubkey} {idx : Nat} {ps : List Post}
    (hg : postsGet posts pa = some ps) (hidx : idx < ps.length) (c : Comment) :
    ((posts.map encPostsEntry).flatten).length
      < (((postsUpdate posts pa idx c).map encPostsEntry).flatten).length := by
  induction posts with
  | nil => exact Option.noConfusion hg
  | cons e rest ih =>
    obtain ⟨k0, ps0⟩ := e
    have hg2 : (if k0 = pa then some ps0 else postsGet rest pa) = some ps := hg
    by_cases hk : k0 = pa
    · rw [if_pos hk] at hg2
      obtain rfl : ps0 = ps := Option.some.inj hg2
      have hupd : postsUpdate ((k0, ps0) :: rest) pa idx c
          = (k0, addCommentAt ps0 idx c) :: rest := by
        show (if k0 = pa then (k0, addCommentAt ps0 idx c) :: rest
            else (k0, ps0) :: postsUpdate rest pa idx c)
          = (k0, addCommentAt ps0 idx c) :: rest
        rw [if_pos hk]
      rw [hupd]
      have hgrow := flatten_length_addCommentAt hidx c
      simp only [List.map_cons, List.flatten_cons, List.length_append,
        encPostsEntry, encList, encU32, natToLEBytes_length, encPubkey,
        natToBEBytes_length]
      omega
    · rw [if_neg hk] at hg2
      have hupd : postsUpdate ((k0, ps0) :: rest) pa idx c
          = (k0, ps0) :: postsUpdate rest pa idx c := by
        show (if k0 = pa then (k0, addCommentAt ps0 idx c) :: rest
            else (k0, ps0) :: postsUpdate rest pa idx c)
          = (k0, ps0) :: postsUpdate rest pa idx c
        rw [if_neg hk]
      rw [hupd]
      have hih := ih hg2
      simp only [List.map_cons, List.flatten_cons, List.length_append]
      omega

theorem encProfile_insert_friend_length {p : UserProfile} {a : Pubkey}
    (h : a ∉ p.friends) :
    (encProfile p).length
      < (encProfile { p with friends := insertSorted p.friends a }).length := by
  have hlen := length_insertSorted_of_not_mem h
  simp only [encProfile, encStr, encBool, encPubkey, encList, encU32,
    natToBEBytes_length, natToLEBytes_length, List.length_append,
    List.length_cons, List.length_nil, flatten_map_encPubkey_length, hlen]
  omega

theorem encProfile_add_post_length (p : UserProfile) (k : Pubkey) (c : List Nat) :
    (encProfile p).length < (encProfile (p.add_post k c)).length := by
  have h := flatten_length_postsInsert p.posts k (Post.mk k c [])
  simp only [encProfile, UserProfile.add_post, encStr, encBool, encPubkey,
    encList, encU32, natToBEBytes_length, natToLEBytes_length,
    List.length_append, List.length_cons, List.length_nil]
  omega

theorem encProfile_add_comment_length {p : UserProfile} {pa : Pubkey}
    {idx : Nat} {ps : List Post} (hg : postsGet p.posts pa = some ps)
    (hidx : idx < ps.length) (k : Pubkey) (c : List Nat) :
    (encProfile p).length < (encProfile (p.add_comment pa idx k c).1).length := by
  have h1 : (p.add_comment pa idx k c).1
      = { p with posts := postsUpdate p.posts pa idx (Comment.mk k c) } := by
    unfold UserProfile.add_comment
    rw [hg]
    show (if idx < ps.length then
        ({ p with posts := postsUpdate p.posts pa idx (Comment.mk k c) }, true)
      else (p, false)).1 = _
    rw [if_pos hidx]
  rw [h1]
  have h := flatten_length_postsUpdate hg hidx (Comment.mk k c)
  simp only [encProfile, encStr, encBool, encPubkey, encList, encU32,
    natToBEBytes_length, natToLEBytes_length, List.length_append,
    List.length_cons, List.length_nil]
  omega

theorem encProfile_set_nft_length (p : UserProfile) :
    (encProfile { p with nft_owned := true }).length = (encProfile p).length := by
  simp only [encProfile, encBool, List.length_append, List.length_cons,
    List.length_nil]

theorem validProfile_new {n b pic : List Nat} {key : Pubkey}
    (hn : ValidStr n) (hb : ValidStr b) (hpi : ValidStr pic)
    (hk : ValidPubkey key) : ValidProfile (UserProfile.new n b pic key) := by
  refine ⟨hn, hb, hpi, hk, ?_, ?_, rfl, ?_, rfl, ?_⟩
  · show (0 : Nat) < 2 ^ 32
    decide
  · intro x hx
    exact absurd hx (List.not_mem_nil x)
  · show (0 : Nat) < 2 ^ 32
    decide
  · intro e he
    exact absurd he (List.not_mem_nil e)

/-! ## The state transition engine (`process_instruction`) -/

/-- The `ProgramError` variants the handlers produce.  The program maps
every semantic failure the specification distinguishes (MalformedAccountData,
DuplicateRequest, PermissionDenied, NotFound) to the single variant
`ProgramError::InvalidAccountData`; `borshIoError` is the error Borsh's
cursor `serialize` returns when the buffer is too small (the `AddComment`
write-back). -/
inductive ProgramError where
  | invalidInstructionData
  | invalidAccountData
  | notEnoughAccountKeys
  | borshIoError
deriving DecidableEq, Repr

/-- Outcome of one call: a committed result, a returned `ProgramError`, or
a Rust panic — the out-of-range slice index in
`data[..len].copy_from_slice(..)` — which also aborts the call but is not
a `ProgramError` value the program constructs. -/
inductive CallResult (α : Type) where
  | ok (a : α)
  | error (e : ProgramError)
  | panicked
deriving DecidableEq, Repr

/-- `enum ProfessionalNetworkingInstruction`. -/
inductive Instr where
  | createUserProfile (name bio profile_picture : List Nat)
  | sendFriendRequest (friend_address : Pubkey)
  | acceptFriendRequest (friend_address : Pubkey)
  | writePost (content : List Nat)
  | addComment (post_author : Pubkey) (post_index : Nat) (content : List Nat)
deriving DecidableEq, Repr

/-- One account passed to `process_instruction`: its key and the profile
its data decodes to (`none` when `UserProfile::try_from_slice` fails). -/
structure Account where
  key : Pubkey
  profile : Option UserProfile
deriving DecidableEq, Repr

/-- Tail of the `AcceptFriendRequest` handler: consume the next account as
the friend's slot, decode it, insert the caller's own key into the
friend's `friends` set and write it back.  `user1` is the caller account
as already written back, `mid` the bridge accounts consumed before the
friend account, and `invoked` records whether the issuance bridge ran. -/
def acceptFriendSide (userKey : Pubkey) (user1 : Account) (mid : List Account)
    (restAfter : List Account) (invoked : Bool) :
    CallResult (List Account × Bool) :=
  match restAfter with
  | [] => .error .notEnoughAccountKeys
  | friendAcc :: rest =>
    match friendAcc.profile with
    | none => .error .invalidAccountData
    | some q =>
      .ok (user1 :: mid ++
        { friendAcc with
            profile := some { q with friends := insertSorted q.friends userKey } } :: rest,
        invoked)

/-- The `CreateUserProfile` arm: build a fresh profile bound to the slot's
own key and overwrite the slot, without reading its previous contents. -/
def processCreate (user : Account) (rest : List Account)
    (name bio pic : List Nat) : CallResult (List Account × Bool) :=
  .ok ({ user with profile := some (UserProfile.new name bio pic user.key) } :: rest,
    false)

/-- The `SendFriendRequest` arm: reject a duplicate target, otherwise
insert it and copy the re-encoded profile back into the slot; only the
caller's slot is touched.  Because `try_from_slice` is strict (it rejects
any leftover byte), a slot that decoded to `p` holds exactly
`encProfile p`, so the write-back capacity is `(encProfile p).length`;
when the insertion grows the encoding past it, `copy_from_slice` panics. -/
def processSend (user : Account) (rest : List Account) (a : Pubkey) :
    CallResult (List Account × Bool) :=
  match user.profile with
  | none => .error .invalidAccountData
  | some p =>
    if a ∈ p.friends then .error .invalidAccountData
    else
      match writeBack (encProfile p)
          (encProfile { p with friends := insertSorted p.friends a }) with
      | some _ =>
        .ok ({ user with profile := some { p with friends := insertSorted p.friends a } } :: rest,
          false)
      | none => .panicked

/-- The `AcceptFriendRequest` arm: insert the target unconditionally; when
the insertion leaves at least five friends and no credential is owned yet,
consume the five bridge accounts, run `create_nft` and set `nft_owned`;
then mutate the friend's slot. -/
def processAccept (user : Account) (rest : List Account) (a : Pubkey) :
    CallResult (List Account × Bool) :=
  match user.profile with
  | none => .error .invalidAccountData
  | some p =>
    if 5 ≤ (insertSorted p.friends a).length ∧ p.nft_owned = false then
      match rest with
      | m1 :: m2 :: m3 :: m4 :: m5 :: rest2 =>
        acceptFriendSide user.key
          { user with
              profile := some
                { p with friends := insertSorted p.friends a, nft_owned := true } }
          [m1, m2, m3, m4, m5] rest2 true
      | _ => .error .notEnoughAccountKeys
    else
      acceptFriendSide user.key
        { user with profile := some { p with friends := insertSorted p.friends a } }
        [] rest false

/-- The `WritePost` arm: gate, append the post, and copy the re-encoded
profile back.  As in `processSend`, strict decode pins the slot to exactly
`encProfile p`, so an appended post that grows the encoding makes the
`copy_from_slice` write-back panic. -/
def processWritePost (user : Account) (rest : List Account)
    (content : List Nat) : CallResult (List Account × Bool) :=
  match user.profile with
  | none => .error .invalidAccountData
  | some p =>
    if p.can_write_post = false then .error .invalidAccountData
    else
      match writeBack (encProfile p) (encProfile (p.add_post user.key content)) with
      | some _ =>
        .ok ({ user with profile := some (p.add_post user.key content) } :: rest, false)
      | none => .panicked

/-- The `AddComment` arm.  Note that the handler discards the
`ProgramResult` returned by `UserProfile::add_comment` (the call on line
245 has no `?`), so a missing post never aborts the call. -/
def processAddComment (user : Account) (rest : List Account)
    (post_author : Pubkey) (post_index : Nat) (content : List Nat) :
    CallResult (List Account × Bool) :=
  match user.profile with
  | none => .error .invalidAccountData
  | some p =>
    if p.can_comment = false then .error .invalidAccountData
    else
      .ok ({ user with
          profile := some (p.add_comment post_author post_index user.key content).1 } :: rest,
        false)

/-- The dispatch of `process_instruction` over decoded account states.
The boolean paired with the resulting accounts records whether the
credential issuance bridge (`create_nft`) was invoked; the bridge's five
external steps are treated as the opaque capability the specification
describes, assumed to succeed when invoked. -/
def processInstruction (instr : Instr) (accounts : List Account) :
    CallResult (List Account × Bool) :=
  match accounts with
  | [] => .error .notEnoughAccountKeys
  | user :: rest =>
    match instr with
    | .createUserProfile name bio pic => processCreate user rest name bio pic
    | .sendFriendRequest a => processSend user rest a
    | .acceptFriendRequest a => processAccept user rest a
    | .writePost content => processWritePost user rest content
    | .addComment pa idx content => processAddComment user rest pa idx content

/-! ## Unfolding lemmas for the handlers -/

theorem acceptFriendSide_ok {userKey : Pubkey} {user1 : Account}
    {mid restAfter : List Account} {invoked : Bool} {out : List Account × Bool}
    (h : acceptFriendSide userKey user1 mid restAfter invoked = .ok out) :
    ∃ friendAcc q tl, restAfter = friendAcc :: tl ∧ friendAcc.profile = some q ∧
      out = (user1 :: mid ++
        { friendAcc with
            profile := some { q with friends := insertSorted q.friends userKey } } :: tl,
        invoked) := by
  cases restAfter with
  | nil => exact CallResult.noConfusion h
  | cons f tl =>
    have h2 : (match f.profile with
        | none =>
          (CallResult.error ProgramError.invalidAccountData :
            CallResult (List Account × Bool))
        | some q =>
          CallResult.ok (user1 :: mid ++
            { f with
                profile := some { q with friends := insertSorted q.friends userKey } } :: tl,
            invoked)) = CallResult.ok out := h
    cases hq : f.profile with
    | none =>
      rw [hq] at h2
      exact CallResult.noConfusion h2
    | some q =>
      rw [hq] at h2
      exact ⟨f, q, tl, rfl, hq, (CallResult.ok.inj h2).symm⟩

theorem processAccept_eq (user : Account) (rest : List Account) (p : UserProfile)
    (a : Pubkey) (hp : user.profile = some p) :
    processAccept user rest a =
      if 5 ≤ (insertSorted p.friends a).length ∧ p.nft_owned = false then
        match rest with
        | m1 :: m2 :: m3 :: m4 :: m5 :: rest2 =>
          acceptFriendSide user.key
            { user with
                profile := some
                  { p with friends := insertSorted p.friends a, nft_owned := true } }
            [m1, m2, m3, m4, m5] rest2 true
        | _ => .error .notEnoughAccountKeys
      else
        acceptFriendSide user.key
          { user with profile := some { p with friends := insertSorted p.friends a } }
          [] rest false := by
  unfold processAccept
  rw [hp]

theorem processSend_eq (user : Account) (rest : List Account) (p : UserProfile)
    (a : Pubkey) (hp : user.profile = some p) :
    processSend user rest a =
      if a ∈ p.friends then .error .invalidAccountData
      else
        match writeBack (encProfile p)
            (encProfile { p with friends := insertSorted p.friends a }) with
        | some _ =>
          .ok ({ user with profile := some { p with friends := insertSorted p.friends a } } :: rest,
            false)
        | none => .panicked := by
  unfold processSend
  rw [hp]

theorem processWritePost_eq (user : Account) (rest : List Account)
    (p : UserProfile) (content : List Nat) (hp : user.profile = some p) :
    processWritePost user rest content =
      if p.can_write_post = false then .error .invalidAccountData
      else
        match writeBack (encProfile p) (encProfile (p.add_post user.key content)) with
        | some _ =>
          .ok ({ user with profile := some (p.add_post user.key content) } :: rest, false)
        | none => .panicked := by
  unfold processWritePost
  rw [hp]

theorem can_write_post_iff (p : UserProfile) :
    p.can_write_post = true ↔ p.nft_owned = true ∧ 5 ≤ p.friends.length := by
  simp [UserProfile.can_write_post]

/-! ## The claims -/

/-- **C7.** A `CreateUserProfile{name, bio, profile_picture}` call always
succeeds and stores a profile with exactly the given fields, the invoking
slot's own key as `address`, empty friends, empty posts and
`nft_owned = false`; no prior state is read, so an already-initialized
slot is silently overwritten. -/
theorem createUserProfile_spec (user : Account) (rest : List Account)
    (name bio pic : List Nat) :
    processInstruction (.createUserProfile name bio pic) (user :: rest)
      = .ok ({ user with profile := some (UserProfile.new name bio pic user.key) } :: rest,
          false)
    ∧ UserProfile.new name bio pic user.key
      = ⟨true, name, bio, pic, user.key, [], false, []⟩ :=
  ⟨rfl, rfl⟩

/-- Profile passing the capability gate: credential owned, five friends. -/
def gatedProfile : UserProfile :=
  ⟨true, [], [], [], 1, [2, 3, 4, 5, 6], true, []⟩

/-- **C1.** On every successful `AcceptFriendRequest{friend_address}` call
on a decodable caller profile, the credential issuance bridge is invoked
and `nft_owned` set to true exactly when, after inserting
`friend_address`, `friends.len() >= 5` holds and `nft_owned` was false;
otherwise the bridge is not invoked and `nft_owned` is unchanged — in
particular once `nft_owned` is true the bridge can never be re-triggered. -/
theorem acceptFriendRequest_bridge (user : Account) (rest accounts' : List Account)
    (p : UserProfile) (a : Pubkey) (invoked : Bool)
    (hp : user.profile = some p)
    (h : processInstruction (.acceptFriendRequest a) (user :: rest)
      = .ok (accounts', invoked)) :
    (invoked = true ↔ 5 ≤ (insertSorted p.friends a).length ∧ p.nft_owned = false)
    ∧ ∃ p' tl, accounts' = { user with profile := some p' } :: tl
        ∧ p'.friends = insertSorted p.friends a
        ∧ p'.nft_owned = (p.nft_owned || invoked) := by
  have hacc : processAccept user rest a = .ok (accounts', invoked) := h
  rw [processAccept_eq user rest p a hp] at hacc
  by_cases hc : 5 ≤ (insertSorted p.friends a).length ∧ p.nft_owned = false
  · rw [if_pos hc] at hacc
    rcases rest with _ | ⟨m1, _ | ⟨m2, _ | ⟨m3, _ | ⟨m4, _ | ⟨m5, rest2⟩⟩⟩⟩⟩
    · exact CallResult.noConfusion hacc
    · exact CallResult.noConfusion hacc
    · exact CallResult.noConfusion hacc
    · exact CallResult.noConfusion hacc
    · exact CallResult.noConfusion hacc
    · obtain ⟨f, q, tl, hrest2, hq, hout⟩ := acceptFriendSide_ok hacc
      rw [Prod.mk.injEq] at hout
      obtain ⟨ha', hi⟩ := hout
      subst hi
      refine ⟨⟨fun _ => hc, fun _ => rfl⟩,
        { p with friends := insertSorted p.friends a, nft_owned := true },
        [m1, m2, m3, m4, m5] ++
          { f with
              profile := some { q with friends := insertSorted q.friends user.key } } :: tl,
        ha', rfl, by simp⟩
  · rw [if_neg hc] at hacc
    obtain ⟨f, q, tl, hrest, hq, hout⟩ := acceptFriendSide_ok hacc
    rw [Prod.mk.injEq] at hout
    obtain ⟨ha', hi⟩ := hout
    subst hi
    refine ⟨⟨fun hinv => absurd hinv (by simp), fun hcc => absurd hcc hc⟩,
      { p with friends := insertSorted p.friends a },
      { f with
          profile := some { q with friends := insertSorted q.friends user.key } } :: tl,
      ?_, rfl, by simp⟩
    simpa using ha'

/-- Caller one friend short of the threshold. -/
def fourFriendProfile : UserProfile :=
  ⟨true, [], [], [], 1, [2, 3, 4, 5], false, []⟩

/-- The friend slot used by the C1 witness. -/
def friendProfile : UserProfile :=
  ⟨true, [], [], [], 6, [], false, []⟩

theorem acceptFriendRequest_bridge_witness :
    ((true : Bool) = true ↔
      5 ≤ (insertSorted fourFriendProfile.friends 6).length
        ∧ fourFriendProfile.nft_owned = false)
    ∧ ∃ p' tl,
        ([⟨1, some ⟨true, [], [], [], 1, [2, 3, 4, 5, 6], true, []⟩⟩, ⟨10, none⟩,
          ⟨11, none⟩, ⟨12, none⟩, ⟨13, none⟩, ⟨14, none⟩,
          ⟨6, some ⟨true, [], [], [], 6, [1], false, []⟩⟩] : List Account)
          = { (⟨1, some fourFriendProfile⟩ : Account) with profile := some p' } :: tl
        ∧ p'.friends = insertSorted fourFriendProfile.friends 6
        ∧ p'.nft_owned = (fourFriendProfile.nft_owned || true) :=
  acceptFriendRequest_bridge ⟨1, some fourFriendProfile⟩
    [⟨10, none⟩, ⟨11, none⟩, ⟨12, none⟩, ⟨13, none⟩, ⟨14, none⟩,
      ⟨6, some friendProfile⟩]
    [⟨1, some ⟨true, [], [], [], 1, [2, 3, 4, 5, 6], true, []⟩⟩, ⟨10, none⟩,
      ⟨11, none⟩, ⟨12, none⟩, ⟨13, none⟩, ⟨14, none⟩,
      ⟨6, some ⟨true, [], [], [], 6, [1], false, []⟩⟩]
    fourFriendProfile 6 true rfl rfl


/-- **C4** (counterexample).  A non-duplicate `SendFriendRequest` that the
claim says commits the inserted friend: the caller's fresh profile fills
its exact-fit slot, the insertion grows the encoding by 32 bytes, and the
`copy_from_slice` write-back panics — nothing is inserted or written
back. -/
theorem sendFriendRequest_never_commits :
    processInstruction (.sendFriendRequest 2)
      [⟨1, some (UserProfile.new [] [] [] 1)⟩] = .panicked := rfl

/-- **C4** (amended).  On a decodable caller profile, `SendFriendRequest`
fails with `DuplicateRequest` (the program's `InvalidAccountData` at the
duplicate check) when the target is already a friend; otherwise the
re-encoded profile is strictly larger than the exact-fit slot strict
decode implies, and the `copy_from_slice` write-back panics, aborting the
call with nothing committed — so no state change ever results.  The
friend's slot is an input of neither path. -/
theorem sendFriendRequest_spec (user : Account) (rest : List Account)
    (p : UserProfile) (a : Pubkey) (hp : user.profile = some p) :
    (a ∈ p.friends →
      processInstruction (.sendFriendRequest a) (user :: rest)
        = .error .invalidAccountData)
    ∧ (a ∉ p.friends →
      processInstruction (.sendFriendRequest a) (user :: rest) = .panicked) := by
  have hd : processInstruction (.sendFriendRequest a) (user :: rest)
      = processSend user rest a := rfl
  constructor
  · intro hmem
    rw [hd, processSend_eq user rest p a hp, if_pos hmem]
  · intro hmem
    have hwb : writeBack (encProfile p)
        (encProfile { p with friends := insertSorted p.friends a }) = none :=
      writeBack_none_of_lt (encProfile_insert_friend_length hmem)
    rw [hd, processSend_eq user rest p a hp, if_neg hmem, hwb]

theorem sendFriendRequest_spec_witness :
    processInstruction (.sendFriendRequest 2)
        [⟨1, some ⟨true, [], [], [], 1, [2], false, []⟩⟩]
      = .error .invalidAccountData :=
  (sendFriendRequest_spec ⟨1, some ⟨true, [], [], [], 1, [2], false, []⟩⟩ []
    ⟨true, [], [], [], 1, [2], false, []⟩ 2 rfl).1 (by decide)

set_option maxRecDepth 4096 in
/-- **C5** (counterexample).  A gate-passing `WritePost` that the claim
says appends a post and writes it back: the appended post grows the
encoding past the exact-fit slot and the write-back panics — no post is
ever committed. -/
theorem writePost_never_commits :
    processInstruction (.writePost [72]) [⟨1, some gatedProfile⟩] = .panicked := rfl

/-- **C5** (amended).  On a decodable caller profile, `WritePost` fails
with `PermissionDenied` (the program's `InvalidAccountData` at the gate)
and changes nothing unless `nft_owned` and `friends.len() >= 5` both
hold; when they hold, the profile with the appended post re-encodes
strictly larger than the exact-fit slot strict decode implies, and the
`copy_from_slice` write-back panics, aborting the call with no post
committed. -/
theorem writePost_spec (user : Account) (rest : List Account) (p : UserProfile)
    (content : List Nat) (hp : user.profile = some p) :
    (¬ (p.nft_owned = true ∧ 5 ≤ p.friends.length) →
      processInstruction (.writePost content) (user :: rest)
        = .error .invalidAccountData)
    ∧ (p.nft_owned = true ∧ 5 ≤ p.friends.length →
      processInstruction (.writePost content) (user :: rest) = .panicked) := by
  have hd : processInstruction (.writePost content) (user :: rest)
      = processWritePost user rest content := rfl
  constructor
  · intro hgate
    have hfalse : p.can_write_post = false := by
      cases hcw : p.can_write_post
      · rfl
      · exact absurd ((can_write_post_iff p).mp hcw) hgate
    rw [hd, processWritePost_eq user rest p content hp, if_pos hfalse]
  · intro hgate
    have htrue : p.can_write_post = true := (can_write_post_iff p).mpr hgate
    have hfalse : ¬ p.can_write_post = false := by simp [htrue]
    have hwb : writeBack (encProfile p)
        (encProfile (p.add_post user.key content)) = none :=
      writeBack_none_of_lt (encProfile_add_post_length p user.key content)
    rw [hd, processWritePost_eq user rest p content hp, if_neg hfalse, hwb]

theorem writePost_spec_witness :
    processInstruction (.writePost [72]) [⟨1, some fourFriendProfile⟩]
      = .error .invalidAccountData :=
  (writePost_spec ⟨1, some fourFriendProfile⟩ [] fourFriendProfile [72] rfl).1
    (by decide)

/-- **C3.** Every successful `AcceptFriendRequest{friend_address}` call
writes two profiles: the caller's profile ends with `friend_address` in
its friends set, and the friend slot's profile gets the caller's own key
inserted into its friends set, unconditionally — a no-op when the key is
already present. -/
theorem acceptFriendRequest_two_writes (user : Account)
    (rest accounts' : List Account) (p : UserProfile) (a : Pubkey)
    (invoked : Bool) (hp : user.profile = some p)
    (h : processInstruction (.acceptFriendRequest a) (user :: rest)
      = .ok (accounts', invoked)) :
    ∃ p' mid friendAcc q tl,
      rest = mid ++ friendAcc :: tl
      ∧ friendAcc.profile = some q
      ∧ accounts' = { user with profile := some p' } :: mid ++
          { friendAcc with
              profile := some { q with friends := insertSorted q.friends user.key } } :: tl
      ∧ a ∈ p'.friends
      ∧ user.key ∈ insertSorted q.friends user.key
      ∧ (sortedB q.friends = true → user.key ∈ q.friends →
          insertSorted q.friends user.key = q.friends) := by
  have hacc : processAccept user rest a = .ok (accounts', invoked) := h
  rw [processAccept_eq user rest p a hp] at hacc
  by_cases hc : 5 ≤ (insertSorted p.friends a).length ∧ p.nft_owned = false
  · rw [if_pos hc] at hacc
    rcases rest with _ | ⟨m1, _ | ⟨m2, _ | ⟨m3, _ | ⟨m4, _ | ⟨m5, rest2⟩⟩⟩⟩⟩
    · exact CallResult.noConfusion hacc
    · exact CallResult.noConfusion hacc
    · exact CallResult.noConfusion hacc
    · exact CallResult.noConfusion hacc
    · exact CallResult.noConfusion hacc
    · obtain ⟨f, q, tl, hrest2, hq, hout⟩ := acceptFriendSide_ok hacc
      rw [Prod.mk.injEq] at hout
      obtain ⟨ha', _⟩ := hout
      refine ⟨{ p with friends := insertSorted p.friends a, nft_owned := true },
        [m1, m2, m3, m4, m5], f, q, tl, by rw [hrest2]; rfl, hq, ha',
        (mem_insertSorted _ _ _).mpr (Or.inl rfl),
        (mem_insertSorted _ _ _).mpr (Or.inl rfl),
        fun hs hm => insertSorted_eq_of_mem hs hm⟩
  · rw [if_neg hc] at hacc
    obtain ⟨f, q, tl, hrest, hq, hout⟩ := acceptFriendSide_ok hacc
    rw [Prod.mk.injEq] at hout
    obtain ⟨ha', _⟩ := hout
    refine ⟨{ p with friends := insertSorted p.friends a }, [], f, q, tl,
      hrest, hq, by simpa using ha',
      (mem_insertSorted _ _ _).mpr (Or.inl rfl),
      (mem_insertSorted _ _ _).mpr (Or.inl rfl),
      fun hs hm => insertSorted_eq_of_mem hs hm⟩

theorem acceptFriendRequest_two_writes_witness :
    ∃ p' mid friendAcc q tl,
      ([⟨2, some ⟨true, [], [], [], 2, [1], false, []⟩⟩] : List Account)
        = mid ++ friendAcc :: tl
      ∧ friendAcc.profile = some q
      ∧ ([⟨1, some ⟨true, [], [], [], 1, [2], false, []⟩⟩,
          ⟨2, some ⟨true, [], [], [], 2, [1], false, []⟩⟩] : List Account)
          = { (⟨1, some ⟨true, [], [], [], 1, [], false, []⟩⟩ : Account) with
                profile := some p' } :: mid ++
            { friendAcc with
                profile := some { q with
                  friends := insertSorted q.friends
                    (Account.key ⟨1, some ⟨true, [], [], [], 1, [], false, []⟩⟩) } } :: tl
      ∧ 2 ∈ p'.friends
      ∧ (Account.key ⟨1, some ⟨true, [], [], [], 1, [], false, []⟩⟩)
          ∈ insertSorted q.friends
              (Account.key ⟨1, some ⟨true, [], [], [], 1, [], false, []⟩⟩)
      ∧ (sortedB q.friends = true →
          (Account.key ⟨1, some ⟨true, [], [], [], 1, [], false, []⟩⟩) ∈ q.friends →
          insertSorted q.friends
            (Account.key ⟨1, some ⟨true, [], [], [], 1, [], false, []⟩⟩) = q.friends) :=
  acceptFriendRequest_two_writes ⟨1, some ⟨true, [], [], [], 1, [], false, []⟩⟩
    [⟨2, some ⟨true, [], [], [], 2, [1], false, []⟩⟩]
    [⟨1, some ⟨true, [], [], [], 1, [2], false, []⟩⟩,
      ⟨2, some ⟨true, [], [], [], 2, [1], false, []⟩⟩]
    ⟨true, [], [], [], 1, [], false, []⟩ 2 false rfl rfl

/-- **C6** (code bug).  `process_instruction` drops the `ProgramResult`
returned by `UserProfile::add_comment` — the call on line 245 has no `?`
— so an `AddComment` naming a missing post author (or an out-of-range
index) returns `Ok` with the profile unchanged instead of failing with
`NotFound`: here the gated caller has no posts at all, the inner
`add_comment` reports the error (second conjunct), yet the instruction
succeeds (first conjunct). -/
theorem addComment_missing_post_returns_ok :
    processInstruction (.addComment 9 0 [33]) [⟨1, some gatedProfile⟩]
      = .ok ([⟨1, some gatedProfile⟩], false)
    ∧ (gatedProfile.add_comment 9 0 1 [33]).2 = false :=
  ⟨rfl, rfl⟩

/-! ## Slot write-back at the byte level -/

/-- `CreateUserProfile`'s slot write at the byte level: serialize the
fresh profile and copy it into the slot's leading bytes. -/
def createProfileSlot (slot : List Nat) (key : Pubkey)
    (name bio pic : List Nat) : Option (List Nat) :=
  writeBack slot (encProfile (UserProfile.new name bio pic key))

/-- **C8** (counterexample).  Writing a freshly created profile into a
slot too small for it (here the zero-sized slots the repository's own
tests allocate) panics at the `copy_from_slice` range index — `none`, the
panic outcome — instead of being rejected with a distinct OutOfSpace
error, which does not exist in the program. -/
theorem writeback_overflow_panics :
    createProfileSlot [] 0 [] [] [] = none
    ∧ 0 < (encProfile (UserProfile.new [] [] [] 0)).length :=
  ⟨rfl, by decide⟩

/-- **C8** (amended).  When the re-encoded bytes exceed the slot's
capacity the `copy_from_slice` write-back panics (aborting the call)
rather than returning an OutOfSpace error; when they fit, exactly the
leading `enc.length` bytes are overwritten, the trailing bytes are left
untouched and the slot keeps its length. -/
theorem writeBack_spec (slot enc : List Nat) :
    (slot.length < enc.length → writeBack slot enc = none)
    ∧ ∀ out, writeBack slot enc = some out →
        out.take enc.length = enc
        ∧ out.drop enc.length = slot.drop enc.length
        ∧ out.length = slot.length := by
  constructor
  · intro hlt
    unfold writeBack
    rw [if_neg (by omega)]
  · intro out hout
    unfold writeBack at hout
    by_cases hle : enc.length ≤ slot.length
    · rw [if_pos hle] at hout
      obtain rfl := (Option.some.inj hout).symm
      refine ⟨List.take_left' rfl, List.drop_left' rfl, ?_⟩
      rw [List.length_append, List.length_drop]
      omega
    · rw [if_neg hle] at hout
      exact Option.noConfusion hout

theorem writeBack_spec_witness :
    writeBack [] [7] = none
    ∧ (([7, 8, 0] : List Nat).take 2 = [7, 8]
      ∧ ([7, 8, 0] : List Nat).drop 2 = ([0, 0, 0] : List Nat).drop 2
      ∧ ([7, 8, 0] : List Nat).length = ([0, 0, 0] : List Nat).length) :=
  ⟨(writeBack_spec [] [7]).1 (by decide),
    (writeBack_spec [0, 0, 0] [7, 8]).2 [7, 8, 0] rfl⟩

/-! ## Reachability of one profile slot at the byte level

One slot's committed contents across any sequence of calls: each call
strict-decodes the slot, mutates the profile, re-serializes it and writes
it back, and a failed call — a `ProgramError` return or a panic — commits
nothing (the host rolls the whole transaction back).  `acceptedBy` is the
friend-side write performed by another slot's `AcceptFriendRequest`.
Modelling each slot's commit independently over-approximates the
program's committable transitions (a real commit additionally needs the
rest of its instruction to succeed), so an invariant proved here covers
every program-reachable state. -/

inductive ProfileOp where
  | create (name bio profile_picture : List Nat)
  | send (friend_address : Pubkey)
  | accept (friend_address : Pubkey)
  | acceptedBy (caller : Pubkey)
  | post (content : List Nat)
  | comment (post_author : Pubkey) (post_index : Nat) (content : List Nat)
deriving DecidableEq, Repr

/-- `CreateUserProfile` on this slot: no decode of the old contents. -/
def createSlot (slot : List Nat) (key : Pubkey) (n b pic : List Nat) :
    CallResult (List Nat) :=
  match writeBack slot (encProfile (UserProfile.new n b pic key)) with
  | some out => .ok out
  | none => .panicked

/-- `SendFriendRequest` on this slot (the only slot it reads or writes). -/
def sendSlot (slot : List Nat) (a : Pubkey) : CallResult (List Nat) :=
  match tryFromSlice slot with
  | none => .error .invalidAccountData
  | some p =>
    if a ∈ p.friends then .error .invalidAccountData
    else
      match writeBack slot (encProfile { p with friends := insertSorted p.friends a }) with
      | some out => .ok out
      | none => .panicked

/-- The caller-side half of `AcceptFriendRequest` on this slot. -/
def acceptSlot (slot : List Nat) (a : Pubkey) : CallResult (List Nat) :=
  match tryFromSlice slot with
  | none => .error .invalidAccountData
  | some p =>
    if 5 ≤ (insertSorted p.friends a).length ∧ p.nft_owned = false then
      match writeBack slot
          (encProfile { p with friends := insertSorted p.friends a, nft_owned := true }) with
      | some out => .ok out
      | none => .panicked
    else
      match writeBack slot (encProfile { p with friends := insertSorted p.friends a }) with
      | some out => .ok out
      | none => .panicked

/-- The friend-side half of another caller's `AcceptFriendRequest`: this
slot gains the caller's key `c`. -/
def acceptedBySlot (slot : List Nat) (c : Pubkey) : CallResult (List Nat) :=
  match tryFromSlice slot with
  | none => .error .invalidAccountData
  | some p =>
    match writeBack slot (encProfile { p with friends := insertSorted p.friends c }) with
    | some out => .ok out
    | none => .panicked

/-- `WritePost` on this slot. -/
def postSlot (slot : List Nat) (key : Pubkey) (c : List Nat) :
    CallResult (List Nat) :=
  match tryFromSlice slot with
  | none => .error .invalidAccountData
  | some p =>
    if p.can_write_post = false then .error .invalidAccountData
    else
      match writeBack slot (encProfile (p.add_post key c)) with
      | some out => .ok out
      | none => .panicked

/-- `AddComment` on this slot.  Its write-back is Borsh's cursor
`serialize(&mut &mut data[..])`, which returns an error — not a panic —
when the buffer is too small, and like `copy_from_slice` leaves trailing
bytes untouched when it fits. -/
def commentSlot (slot : List Nat) (key pa : Pubkey) (idx : Nat) (c : List Nat) :
    CallResult (List Nat) :=
  match tryFromSlice slot with
  | none => .error .invalidAccountData
  | some p =>
    if p.can_comment = false then .error .invalidAccountData
    else
      if (encProfile (p.add_comment pa idx key c).1).length ≤ slot.length then
        .ok (encProfile (p.add_comment pa idx key c).1
          ++ slot.drop (encProfile (p.add_comment pa idx key c).1).length)
      else .error .borshIoError

/-- The committed contents of the slot after one call: a failed call
commits nothing. -/
def stepSlot (key : Pubkey) (slot : List Nat) : ProfileOp → List Nat
  | .create n b pic =>
    match createSlot slot key n b pic with
    | .ok out => out
    | _ => slot
  | .send a =>
    match sendSlot slot a with
    | .ok out => out
    | _ => slot
  | .accept a =>
    match acceptSlot slot a with
    | .ok out => out
    | _ => slot
  | .acceptedBy c =>
    match acceptedBySlot slot c with
    | .ok out => out
    | _ => slot
  | .post c =>
    match postSlot slot key c with
    | .ok out => out
    | _ => slot
  | .comment pa idx c =>
    match commentSlot slot key pa idx c with
    | .ok out => out
    | _ => slot

def runSlotOps (key : Pubkey) (slot : List Nat) (ops : List ProfileOp) :
    List Nat :=
  ops.foldl (stepSlot key) slot

/-- Payloads the wire format can represent: a `create`'s strings are
genuine byte strings with `u32`-bounded lengths — automatic for the
program's real `String`s. -/
def opValid : ProfileOp → Prop
  | .create n b pic => ValidStr n ∧ ValidStr b ∧ ValidStr pic
  | _ => True

instance : (op : ProfileOp) → Decidable (opValid op)
  | .create _ _ _ => instDecidableAnd
  | .send _ => .isTrue trivial
  | .accept _ => .isTrue trivial
  | .acceptedBy _ => .isTrue trivial
  | .post _ => .isTrue trivial
  | .comment _ _ _ => .isTrue trivial

/-- Invariant of one slot with key `key`: it is undecodable (every later
call fails at decode), or it holds exactly the encoding of a valid
profile that does not list `key` among its friends. -/
def SlotOk (key : Pubkey) (slot : List Nat) : Prop :=
  tryFromSlice slot = none ∨
    ∃ p, slot = encProfile p ∧ ValidProfile p ∧ key ∉ p.friends

theorem sendSlot_eq {p : UserProfile} (hv : ValidProfile p) (a : Pubkey) :
    sendSlot (encProfile p) a =
      if a ∈ p.friends then .error .invalidAccountData
      else
        match writeBack (encProfile p)
            (encProfile { p with friends := insertSorted p.friends a }) with
        | some out => .ok out
        | none => .panicked := by
  unfold sendSlot
  rw [tryFromSlice_encProfile hv]

theorem acceptSlot_eq {p : UserProfile} (hv : ValidProfile p) (a : Pubkey) :
    acceptSlot (encProfile p) a =
      if 5 ≤ (insertSorted p.friends a).length ∧ p.nft_owned = false then
        match writeBack (encProfile p)
            (encProfile { p with friends := insertSorted p.friends a, nft_owned := true }) with
        | some out => .ok out
        | none => .panicked
      else
        match writeBack (encProfile p)
            (encProfile { p with friends := insertSorted p.friends a }) with
        | some out => .ok out
        | none => .panicked := by
  unfold acceptSlot
  rw [tryFromSlice_encProfile hv]

theorem acceptedBySlot_eq {p : UserProfile} (hv : ValidProfile p) (c : Pubkey) :
    acceptedBySlot (encProfile p) c =
      match writeBack (encProfile p)
          (encProfile { p with friends := insertSorted p.friends c }) with
      | some out => .ok out
      | none => .panicked := by
  unfold acceptedBySlot
  rw [tryFromSlice_encProfile hv]

theorem postSlot_eq {p : UserProfile} (hv : ValidProfile p) (key : Pubkey)
    (c : List Nat) :
    postSlot (encProfile p) key c =
      if p.can_write_post = false then .error .invalidAccountData
      else
        match writeBack (encProfile p) (encProfile (p.add_post key c)) with
        | some out => .ok out
        | none => .panicked := by
  unfold postSlot
  rw [tryFromSlice_encProfile hv]

theorem commentSlot_eq {p : UserProfile} (hv : ValidProfile p)
    (key pa : Pubkey) (idx : Nat) (c : List Nat) :
    commentSlot (encProfile p) key pa idx c =
      if p.can_comment = false then .error .invalidAccountData
      else
        if (encProfile (p.add_comment pa idx key c).1).length
            ≤ (encProfile p).length then
          .ok (encProfile (p.add_comment pa idx key c).1
            ++ (encProfile p).drop (encProfile (p.add_comment pa idx key c).1).length)
        else .error .borshIoError := by
  unfold commentSlot
  rw [tryFromSlice_encProfile hv]

theorem createSlot_ok {key : Pubkey} {slot : List Nat} {n b pic : List Nat}
    (hk : ValidPubkey key) (hn : ValidStr n) (hb : ValidStr b)
    (hpi : ValidStr pic) {out : List Nat}
    (h : createSlot slot key n b pic = .ok out) : SlotOk key out := by
  have hvn := validProfile_new hn hb hpi hk
  unfold createSlot at h
  cases hwb : writeBack slot (encProfile (UserProfile.new n b pic key)) with
  | none =>
    rw [hwb] at h
    exact CallResult.noConfusion h
  | some o =>
    rw [hwb] at h
    obtain rfl : o = out := CallResult.ok.inj h
    unfold writeBack at hwb
    by_cases hle : (encProfile (UserProfile.new n b pic key)).length ≤ slot.length
    · rw [if_pos hle] at hwb
      obtain rfl := Option.some.inj hwb
      cases hdrop : slot.drop (encProfile (UserProfile.new n b pic key)).length with
      | nil =>
        right
        refine ⟨UserProfile.new n b pic key, ?_, hvn, ?_⟩
        · rw [List.append_nil]
        · intro hmem
          exact absurd hmem (List.not_mem_nil key)
      | cons x xs =>
        left
        exact tryFromSlice_append_ne_nil hvn (by simp)
    · rw [if_neg hle] at hwb
      exact Option.noConfusion hwb

theorem sendSlot_not_ok {key : Pubkey} {slot : List Nat} {a : Pubkey}
    (hs : SlotOk key slot) {out : List Nat}
    (h : sendSlot slot a = .ok out) : False := by
  rcases hs with hnone | ⟨p, rfl, hv, hnf⟩
  · unfold sendSlot at h
    rw [hnone] at h
    exact CallResult.noConfusion h
  · rw [sendSlot_eq hv] at h
    by_cases hmem : a ∈ p.friends
    · rw [if_pos hmem] at h
      exact CallResult.noConfusion h
    · rw [if_neg hmem,
        writeBack_none_of_lt (encProfile_insert_friend_length hmem)] at h
      exact CallResult.noConfusion h

theorem acceptSlot_ok {key : Pubkey} {slot : List Nat} {a : Pubkey}
    (hs : SlotOk key slot) {out : List Nat}
    (h : acceptSlot slot a = .ok out) : SlotOk key out := by
  rcases hs with hnone | ⟨p, rfl, hv, hnf⟩
  · unfold acceptSlot at h
    rw [hnone] at h
    exact CallResult.noConfusion h
  · rw [acceptSlot_eq hv] at h
    by_cases hmem : a ∈ p.friends
    · have hsorted : sortedB p.friends = true := hv.2.2.2.2.2.2.1
      have heq : insertSorted p.friends a = p.friends :=
        insertSorted_eq_of_mem hsorted hmem
      rw [heq] at h
      by_cases hc : 5 ≤ p.friends.length ∧ p.nft_owned = false
      · rw [if_pos hc] at h
        have hlen : (encProfile { p with friends := p.friends, nft_owned := true }).length
            = (encProfile p).length := encProfile_set_nft_length p
        rw [writeBack_exact hlen] at h
        obtain rfl := CallResult.ok.inj h
        right
        exact ⟨{ p with friends := p.friends, nft_owned := true }, rfl, hv, hnf⟩
      · rw [if_neg hc] at h
        have hlen : (encProfile { p with friends := p.friends }).length
            = (encProfile p).length := rfl
        rw [writeBack_exact hlen] at h
        obtain rfl := CallResult.ok.inj h
        right
        exact ⟨{ p with friends := p.friends }, rfl, hv, hnf⟩
    · have hlt := encProfile_insert_friend_length hmem
      by_cases hc : 5 ≤ (insertSorted p.friends a).length ∧ p.nft_owned = false
      · rw [if_pos hc] at h
        have hlen : (encProfile
              { p with friends := insertSorted p.friends a, nft_owned := true }).length
            = (encProfile { p with friends := insertSorted p.friends a }).length :=
          encProfile_set_nft_length { p with friends := insertSorted p.friends a }
        rw [writeBack_none_of_lt (by omega)] at h
        exact CallResult.noConfusion h
      · rw [if_neg hc,
          writeBack_none_of_lt hlt] at h
        exact CallResult.noConfusion h

theorem acceptedBySlot_ok {key : Pubkey} {slot : List Nat} {c : Pubkey}
    (hs : SlotOk key slot) {out : List Nat}
    (h : acceptedBySlot slot c = .ok out) : SlotOk key out := by
  rcases hs with hnone | ⟨p, rfl, hv, hnf⟩
  · unfold acceptedBySlot at h
    rw [hnone] at h
    exact CallResult.noConfusion h
  · rw [acceptedBySlot_eq hv] at h
    by_cases hmem : c ∈ p.friends
    · have hsorted : sortedB p.friends = true := hv.2.2.2.2.2.2.1
      have heq : insertSorted p.friends c = p.friends :=
        insertSorted_eq_of_mem hsorted hmem
      rw [heq] at h
      have hlen : (encProfile { p with friends := p.friends }).length
          = (encProfile p).length := rfl
      rw [writeBack_exact hlen] at h
      obtain rfl := CallResult.ok.inj h
      right
      exact ⟨{ p with friends := p.friends }, rfl, hv, hnf⟩
    · rw [writeBack_none_of_lt (encProfile_insert_friend_length hmem)] at h
      exact CallResult.noConfusion h

theorem postSlot_not_ok {key : Pubkey} {slot : List Nat} {c : List Nat}
    (hs : SlotOk key slot) {out : List Nat}
    (h : postSlot slot key c = .ok out) : False := by
  rcases hs with hnone | ⟨p, rfl, hv, hnf⟩
  · unfold postSlot at h
    rw [hnone] at h
    exact CallResult.noConfusion h
  · rw [postSlot_eq hv] at h
    by_cases hg : p.can_write_post = false
    · rw [if_pos hg] at h
      exact CallResult.noConfusion h
    · rw [if_neg hg,
        writeBack_none_of_lt (encProfile_add_post_length p key c)] at h
      exact CallResult.noConfusion h

theorem commentSlot_ok {key : Pubkey} {slot : List Nat} {pa : Pubkey}
    {idx : Nat} {c : List Nat} (hs : SlotOk key slot) {out : List Nat}
    (h : commentSlot slot key pa idx c = .ok out) : SlotOk key out := by
  rcases hs with hnone | ⟨p, rfl, hv, hnf⟩
  · unfold commentSlot at h
    rw [hnone] at h
    exact CallResult.noConfusion h
  · rw [commentSlot_eq hv] at h
    by_cases hg : p.can_comment = false
    · rw [if_pos hg] at h
      exact CallResult.noConfusion h
    · rw [if_neg hg] at h
      cases hpg : postsGet p.posts pa with
      | none =>
        have h1 : (p.add_comment pa idx key c).1 = p := by
          unfold UserProfile.add_comment
          rw [hpg]
        rw [h1, if_pos (le_refl (encProfile p).length), List.drop_length,
          List.append_nil] at h
        obtain rfl := CallResult.ok.inj h
        exact Or.inr ⟨p, rfl, hv, hnf⟩
      | some ps =>
        by_cases hidx : idx < ps.length
        · have hlt := encProfile_add_comment_length hpg hidx key c
          rw [if_neg (by omega)] at h
          exact CallResult.noConfusion h
        · have h1 : (p.add_comment pa idx key c).1 = p := by
            unfold UserProfile.add_comment
            rw [hpg]
            show (if idx < ps.length then
                ({ p with posts := postsUpdate p.posts pa idx (Comment.mk key c) }, true)
              else (p, false)).1 = p
            rw [if_neg hidx]
          rw [h1, if_pos (le_refl (encProfile p).length), List.drop_length,
            List.append_nil] at h
          obtain rfl := CallResult.ok.inj h
          exact Or.inr ⟨p, rfl, hv, hnf⟩

theorem stepSlot_ok {key : Pubkey} (hk : ValidPubkey key) {slot : List Nat}
    (hs : SlotOk key slot) (op : ProfileOp) (hop : opValid op) :
    SlotOk key (stepSlot key slot op) := by
  cases op with
  | create n b pic =>
    obtain ⟨hn, hb, hpi⟩ := hop
    show SlotOk key (match createSlot slot key n b pic with
      | .ok out => out
      | _ => slot)
    cases hc : createSlot slot key n b pic with
    | ok out => exact createSlot_ok hk hn hb hpi hc
    | error e => exact hs
    | panicked => exact hs
  | send a =>
    show SlotOk key (match sendSlot slot a with
      | .ok out => out
      | _ => slot)
    cases hc : sendSlot slot a with
    | ok out => exact (sendSlot_not_ok hs hc).elim
    | error e => exact hs
    | panicked => exact hs
  | accept a =>
    show SlotOk key (match acceptSlot slot a with
      | .ok out => out
      | _ => slot)
    cases hc : acceptSlot slot a with
    | ok out => exact acceptSlot_ok hs hc
    | error e => exact hs
    | panicked => exact hs
  | acceptedBy c =>
    show SlotOk key (match acceptedBySlot slot c with
      | .ok out => out
      | _ => slot)
    cases hc : acceptedBySlot slot c with
    | ok out => exact acceptedBySlot_ok hs hc
    | error e => exact hs
    | panicked => exact hs
  | post c =>
    show SlotOk key (match postSlot slot key c with
      | .ok out => out
      | _ => slot)
    cases hc : postSlot slot key c with
    | ok out => exact (postSlot_not_ok hs hc).elim
    | error e => exact hs
    | panicked => exact hs
  | comment pa idx c =>
    show SlotOk key (match commentSlot slot key pa idx c with
      | .ok out => out
      | _ => slot)
    cases hc : commentSlot slot key pa idx c with
    | ok out => exact commentSlot_ok hs hc
    | error e => exact hs
    | panicked => exact hs

theorem runSlotOps_ok {key : Pubkey} (hk : ValidPubkey key)
    (ops : List ProfileOp) :
    ∀ slot, SlotOk key slot → (∀ op ∈ ops, opValid op) →
      SlotOk key (runSlotOps key slot ops) := by
  induction ops with
  | nil => exact fun slot hs _ => hs
  | cons op ops ih =>
    intro slot hs hops
    exact ih (stepSlot key slot op)
      (stepSlot_ok hk hs op (hops op (List.mem_cons_self op ops)))
      (fun op2 hop2 => hops op2 (List.mem_cons_of_mem op hop2))

/-- **C9.** In every state reachable from a freshly created profile via
any sequence of the five operations — sending or accepting requests,
even ones naming the profile's own address, being the friend slot of
another caller's accept, posting, commenting — the slot never stores a
profile whose own address is a member of its own friends set.  An
insertion that would actually add a friend grows the Borsh encoding past
the exact-fit slot strict decode implies, so its write-back panics and no
friend insertion ever commits.  The `ValidStr`/`ValidPubkey` hypotheses
say the created strings and the key are representable on the wire, as the
program's `String`s and 32-byte keys always are. -/
theorem no_self_friend (key : Pubkey) (name bio pic : List Nat)
    (ops : List ProfileOp) (hk : ValidPubkey key) (hn : ValidStr name)
    (hb : ValidStr bio) (hpc : ValidStr pic)
    (hops : ∀ op ∈ ops, opValid op) :
    ∀ p, tryFromSlice (runSlotOps key
        (encProfile (UserProfile.new name bio pic key)) ops) = some p →
      key ∉ p.friends := by
  intro p hp
  have h0 : SlotOk key (encProfile (UserProfile.new name bio pic key)) :=
    Or.inr ⟨UserProfile.new name bio pic key, rfl,
      validProfile_new hn hb hpc hk,
      fun hm => absurd hm (List.not_mem_nil key)⟩
  have hfin := runSlotOps_ok hk ops _ h0 hops
  rcases hfin with hnone | ⟨q, heq, hvq, hnq⟩
  · rw [hnone] at hp
    exact Option.noConfusion hp
  · rw [heq, tryFromSlice_encProfile hvq] at hp
    obtain rfl := Option.some.inj hp
    exact hnq

set_option maxRecDepth 8192 in
theorem no_self_friend_witness :
    (1 : Pubkey) ∉ (UserProfile.new [] [] [] 1).friends :=
  no_self_friend 1 [] [] []
    [ProfileOp.send 1, ProfileOp.accept 2, ProfileOp.post [5]]
    (by decide) (by decide) (by decide) (by decide) (by decide)
    (UserProfile.new [] [] [] 1) (by decide)

/-! ## The credential bridge's signing authority -/

/-- The signer seeds `create_nft` passes to every `invoke_signed`:
`&[&user_key.to_bytes(), &[user_account.lamports() as u8]]` — the caller's
32 key bytes followed by one byte holding the caller account's lamport
balance truncated to `u8`. -/
def signersSeeds (userKey : Pubkey) (lamports : Nat) : List (List Nat) :=
  [natToBEBytes 32 userKey, [lamports % 256]]

/-- **C10** (counterexample).  The derived signing authority is not a
function of the caller's identity alone: two invocations with the same
caller key but lamport balances 0 and 1 produce different seeds. -/
theorem signersSeeds_lamports_dependent :
    signersSeeds 0 0 ≠ signersSeeds 0 1 := by decide

/-- **C10** (amended).  The seeds are determined by the caller's identity
together with the low byte of the caller account's lamport balance: two
invocations agreeing on both derive identical seeds. -/
theorem signersSeeds_key_and_lamports (k : Pubkey) (l1 l2 : Nat)
    (h : l1 % 256 = l2 % 256) : signersSeeds k l1 = signersSeeds k l2 := by
  unfold signersSeeds
  rw [h]

theorem signersSeeds_key_and_lamports_witness :
    signersSeeds 5 256 = signersSeeds 5 512 :=
  signersSeeds_key_and_lamports 5 256 512 (by decide)

end SocialLedger
